import Mathlib

/-!
Verification of the pebble excerpt: ingestion table construction
(`metamorphic/build.go`), virtual-table bounds constraining and iteration
(`sstable/testdata/virtual_reader`), external-file ingestion validation, and
the open-file-tracking filesystem wrapper (`vfs/vfstest/open_files.go`).

User keys are modelled as byte strings (`List Nat`), ordered bytewise
lexicographically (shorter prefix first), matching Go `bytes.Compare`.
-/

/-- Bytewise lexicographic strict order on keys, as `bytes.Compare(a,b) < 0`. -/
def keyLT : List Nat → List Nat → Bool
  | [], [] => false
  | [], _ :: _ => true
  | _ :: _, [] => false
  | a :: as, b :: bs => if a < b then true else if a = b then keyLT as bs else false

/-- `a ≤ b` on keys: `b` does not sort strictly before `a`. -/
def keyLE (a b : List Nat) : Bool := !(keyLT b a)

theorem keyLT_irrefl : ∀ a, keyLT a a = false := by
  intro a
  induction a with
  | nil => rfl
  | cons x xs ih => simp [keyLT, ih]

theorem keyLT_trans :
    ∀ a b c, keyLT a b = true → keyLT b c = true → keyLT a c = true := by
  intro a
  induction a with
  | nil =>
    intro b c hab hbc
    cases b with
    | nil => exact hbc
    | cons y ys =>
      cases c with
      | nil => simp [keyLT] at hbc
      | cons z zs => rfl
  | cons x xs ih =>
    intro b c hab hbc
    cases b with
    | nil => simp [keyLT] at hab
    | cons y ys =>
      cases c with
      | nil => simp [keyLT] at hbc
      | cons z zs =>
        simp only [keyLT] at hab hbc ⊢
        by_cases h1 : x < y
        · by_cases h2 : y < z
          · simp [Nat.lt_trans h1 h2]
          · rw [if_neg h2] at hbc
            by_cases h3 : y = z
            · simp [h3 ▸ h1]
            · simp [h3] at hbc
        · rw [if_neg h1] at hab
          by_cases h4 : x = y
          · subst h4
            rw [if_pos rfl] at hab
            by_cases h2 : x < z
            · simp [h2]
            · rw [if_neg h2] at hbc ⊢
              by_cases h3 : x = z
              · rw [if_pos h3] at hbc ⊢
                exact ih ys zs hab hbc
              · simp [h3] at hbc
          · simp [h4] at hab

theorem keyLT_eq_of_not_lt :
    ∀ a b, keyLT a b = false → keyLT b a = false → a = b := by
  intro a
  induction a with
  | nil =>
    intro b hab hba
    cases b with
    | nil => rfl
    | cons y ys => simp [keyLT] at hab
  | cons x xs ih =>
    intro b hab hba
    cases b with
    | nil => simp [keyLT] at hba
    | cons y ys =>
      simp only [keyLT] at hab hba
      by_cases h1 : x < y
      · simp [h1] at hab
      · by_cases h2 : y < x
        · simp [h2] at hba
        · have hxy : x = y := by omega
          subst hxy
          rw [if_neg h1, if_pos rfl] at hab
          rw [if_neg h2, if_pos rfl] at hba
          rw [ih ys hab hba]

theorem keyLT_asymm {a b : List Nat} (h : keyLT a b = true) : keyLT b a = false := by
  cases hba : keyLT b a with
  | false => rfl
  | true =>
    have := keyLT_trans a b a h hba
    rw [keyLT_irrefl] at this
    simp at this

theorem keyLT_trichotomy (a b : List Nat) :
    keyLT a b = true ∨ a = b ∨ keyLT b a = true := by
  cases hab : keyLT a b with
  | true => exact Or.inl rfl
  | false =>
    cases hba : keyLT b a with
    | true => exact Or.inr (Or.inr rfl)
    | false => exact Or.inr (Or.inl (keyLT_eq_of_not_lt a b hab hba))

theorem keyLE_refl (a : List Nat) : keyLE a a = true := by
  simp [keyLE, keyLT_irrefl]

theorem keyLE_of_lt {a b : List Nat} (h : keyLT a b = true) : keyLE a b = true := by
  simp [keyLE, keyLT_asymm h]

theorem keyLE_iff_not_lt {a b : List Nat} : keyLE a b = true ↔ keyLT b a = false := by
  simp [keyLE]

theorem keyLT_of_le_of_lt {a b c : List Nat}
    (hab : keyLE a b = true) (hbc : keyLT b c = true) : keyLT a c = true := by
  rcases keyLT_trichotomy a c with h | h | h
  · exact h
  · subst h
    rw [keyLE_iff_not_lt] at hab
    rw [hab] at hbc
    simp at hbc
  · have h2 := keyLT_trans b c a hbc h
    rw [keyLE_iff_not_lt] at hab
    rw [hab] at h2
    simp at h2

theorem keyLT_of_lt_of_le {a b c : List Nat}
    (hab : keyLT a b = true) (hbc : keyLE b c = true) : keyLT a c = true := by
  rcases keyLT_trichotomy a c with h | h | h
  · exact h
  · subst h
    rw [keyLE_iff_not_lt] at hbc
    rw [hbc] at hab
    simp at hab
  · have h2 := keyLT_trans c a b h hab
    rw [keyLE_iff_not_lt] at hbc
    rw [hbc] at h2
    simp at h2

theorem keyLE_trans {a b c : List Nat}
    (hab : keyLE a b = true) (hbc : keyLE b c = true) : keyLE a c = true := by
  rw [keyLE_iff_not_lt]
  cases h : keyLT c a with
  | false => rfl
  | true =>
    have h2 := keyLT_of_lt_of_le (keyLT_of_lt_of_le h hab) hbc
    rw [keyLT_irrefl] at h2
    simp at h2

/-- `max` of two keys, as the virtual reader computes its effective start. -/
def keyMax (a b : List Nat) : List Nat := if keyLT a b then b else a

/-- `min` of two keys, used when truncating spans to virtual bounds. -/
def keyMin (a b : List Nat) : List Nat := if keyLT a b then a else b

theorem keyLE_left_keyMax (a b : List Nat) : keyLE a (keyMax a b) = true := by
  unfold keyMax
  split_ifs with h
  · exact keyLE_of_lt h
  · exact keyLE_refl a

theorem keyLE_right_keyMax (a b : List Nat) : keyLE b (keyMax a b) = true := by
  unfold keyMax
  split_ifs with h
  · exact keyLE_refl b
  · have h2 : keyLT a b = false := by simpa using h
    simp [keyLE, h2]

theorem keyMax_eq_left {a b : List Nat} (h : keyLE b a = true) : keyMax a b = a := by
  unfold keyMax
  rw [keyLE_iff_not_lt] at h
  rw [h]
  simp

theorem keyMin_eq_left {a b : List Nat} (h : keyLE a b = true) : keyMin a b = a := by
  unfold keyMin
  cases hab : keyLT a b with
  | true => simp
  | false =>
    rw [keyLE_iff_not_lt] at h
    simp [keyLT_eq_of_not_lt a b hab h]

/-! ## BoundsConstrainer (§4.5)

Modelled from the spec: the virtual reader's bounds-constraining computation
is not part of the excerpt's source; only its test vectors
(`sstable/testdata/virtual_reader`, `constrain` cases) are. The model follows
the spec's algorithm for the canonical case where the virtual end bound is the
table's own inclusive upper key, and is validated below against every
`constrain` test vector from the testdata. -/

/-- Modelled from the spec: `BoundsConstrainer`. Given virtual table bounds
`[vStart, vEnd]` (end inclusive, canonical case) and query bounds
`[qStart, qEnd)` or `[qStart, qEnd]` per `qEndInc`, produce effective bounds
`(eStart, eEnd, eEndInclusive)`. -/
def constrain (vStart vEnd qStart qEnd : List Nat) (qEndInc : Bool) :
    List Nat × List Nat × Bool :=
  if keyLT vEnd qEnd then (keyMax qStart vStart, vEnd, true)
  else (keyMax qStart vStart, qEnd, qEndInc)

/-- Membership of a key in effective bounds `[s, e]` or `[s, e)` per `inc`. -/
def inEffBounds (s e : List Nat) (inc : Bool) (k : List Nat) : Bool :=
  keyLE s k && (if inc then keyLE k e else keyLT k e)

/-- A point-key scan constrained to effective bounds: the keys of the table
that the iterator yields. Total by construction — consuming any effective
bounds (including empty ones) cannot error or panic. -/
def scanKeys (table : List (List Nat)) (s e : List Nat) (inc : Bool) :
    List (List Nat) :=
  table.filter (inEffBounds s e inc)

theorem inEffBounds_of_empty {s e : List Nat} {inc : Bool}
    (h : keyLT e s = true) (k : List Nat) : inEffBounds s e inc k = false := by
  unfold inEffBounds
  cases hle : keyLE s k with
  | false => simp
  | true =>
    cases inc with
    | true =>
      cases hke : keyLE k e with
      | false => simp [hke]
      | true =>
        have h2 := keyLT_of_le_of_lt (keyLE_trans hle hke) h
        rw [keyLT_irrefl] at h2
        simp at h2
    | false =>
      cases hke : keyLT k e with
      | false => simp [hke]
      | true =>
        have h2 := keyLT_of_le_of_lt hle (keyLT_trans _ _ _ hke h)
        rw [keyLT_irrefl] at h2
        simp at h2

/-- Claim C3: for every pair of query bounds and virtual-table bounds, the
bounds-constraining computation returns `eStart = max(qStart, vStart)`; it
clamps `eEnd` to `vEnd` and forces `eEndInclusive` exactly when `qEnd`
exceeds `vEnd`, and otherwise leaves `eEnd = qEnd` and
`eEndInclusive = qEndInc` unchanged; every key within the effective bounds is
within the virtual bounds. -/
theorem constrain_spec (vStart vEnd qStart qEnd : List Nat) (qEndInc : Bool) :
    (constrain vStart vEnd qStart qEnd qEndInc).1 = keyMax qStart vStart ∧
    (keyLT vEnd qEnd = true →
      constrain vStart vEnd qStart qEnd qEndInc = (keyMax qStart vStart, vEnd, true)) ∧
    (keyLT vEnd qEnd = false →
      constrain vStart vEnd qStart qEnd qEndInc = (keyMax qStart vStart, qEnd, qEndInc)) ∧
    (∀ k : List Nat,
      inEffBounds (constrain vStart vEnd qStart qEnd qEndInc).1
        (constrain vStart vEnd qStart qEnd qEndInc).2.1
        (constrain vStart vEnd qStart qEnd qEndInc).2.2 k = true →
      keyLE vStart k = true ∧ keyLE k vEnd = true) := by
  refine ⟨?_, ?_, ?_, ?_⟩
  · unfold constrain
    split_ifs <;> rfl
  · intro h
    simp [constrain, h]
  · intro h
    simp [constrain, h]
  · intro k hk
    by_cases hclamp : keyLT vEnd qEnd = true
    · have heq : constrain vStart vEnd qStart qEnd qEndInc =
          (keyMax qStart vStart, vEnd, true) := by simp [constrain, hclamp]
      rw [heq] at hk
      simp only [inEffBounds, Bool.and_eq_true, if_true] at hk
      obtain ⟨h1, h2⟩ := hk
      exact ⟨keyLE_trans (keyLE_right_keyMax qStart vStart) h1, h2⟩
    · have hcl : keyLT vEnd qEnd = false := by simpa using hclamp
      have heq : constrain vStart vEnd qStart qEnd qEndInc =
          (keyMax qStart vStart, qEnd, qEndInc) := by simp [constrain, hcl]
      rw [heq] at hk
      simp only [inEffBounds, Bool.and_eq_true] at hk
      obtain ⟨h1, h2⟩ := hk
      have hqv : keyLE qEnd vEnd = true := keyLE_iff_not_lt.mpr hcl
      refine ⟨keyLE_trans (keyLE_right_keyMax qStart vStart) h1, ?_⟩
      cases qEndInc with
      | true => exact keyLE_trans (by simpa using h2) hqv
      | false => exact keyLE_trans (keyLE_of_lt (by simpa using h2)) hqv

/-- Witness for C3: instantiates `constrain_spec` on the testdata vector
`constrain bb,e,false` against virtual bounds `[b,c]` (case 4 of the
testdata), discharging the clamping hypothesis and the membership hypothesis
at key `bb`. -/
theorem constrain_spec_witness :
    keyLT [99] [101] = true ∧
    constrain [98] [99] [98, 98] [101] false = ([98, 98], [99], true) ∧
    (keyLE [98] [98, 98] = true ∧ keyLE [98, 98] [99] = true) :=
  ⟨by decide,
   (constrain_spec [98] [99] [98, 98] [101] false).2.1 (by decide),
   (constrain_spec [98] [99] [98, 98] [101] false).2.2.2 [98, 98] (by decide)⟩

/-! Validation of the `constrain` model against every test vector in
`sstable/testdata/virtual_reader` (virtual bounds `[b,c]`). Keys:
a=[97], b=[98], bb=[98,98], bbb=[98,98,98], c=[99], aa=[97,97], d=[100],
e=[101]. -/

theorem constrain_testdata_case1 :
    constrain [98] [99] [97] [98, 98] false = ([98], [98, 98], false) := by decide

theorem constrain_testdata_case2 :
    constrain [98] [99] [97] [98, 98] true = ([98], [98, 98], true) := by decide

theorem constrain_testdata_case3a :
    constrain [98] [99] [98, 98] [99] false = ([98, 98], [99], false) := by decide

theorem constrain_testdata_case3b :
    constrain [98] [99] [98, 98] [99] true = ([98, 98], [99], true) := by decide

theorem constrain_testdata_case4 :
    constrain [98] [99] [98, 98] [101] false = ([98, 98], [99], true) := by decide

theorem constrain_testdata_case5 :
    constrain [98] [99] [98, 98] [101] true = ([98, 98], [99], true) := by decide

theorem constrain_testdata_case6a :
    constrain [98] [99] [98, 98] [98, 98, 98] false = ([98, 98], [98, 98, 98], false) := by
  decide

theorem constrain_testdata_case6b :
    constrain [98] [99] [97] [100] false = ([98], [99], true) := by decide

theorem constrain_testdata_case7 :
    constrain [98] [99] [97] [97, 97] false = ([98], [97, 97], false) := by decide

/-- Claim C6: for query bounds and virtual bounds with no overlap, the
constraining computation returns an effective start sorting after the
effective end, and a scan constrained to those effective bounds reports no
keys. `scanKeys` is a total function: the empty result is not an error. -/
theorem constrain_no_overlap (vStart vEnd qStart qEnd : List Nat) (qEndInc : Bool)
    (eS eE : List Nat) (inc : Bool)
    (hq : keyLE qStart qEnd = true)
    (hsep : keyLT qEnd vStart = true ∨ keyLT vEnd qStart = true)
    (heq : constrain vStart vEnd qStart qEnd qEndInc = (eS, eE, inc)) :
    keyLT eE eS = true ∧ ∀ table : List (List Nat), scanKeys table eS eE inc = [] := by
  have hlt : keyLT eE eS = true := by
    rcases hsep with h | h
    · -- query entirely below the virtual range: qEnd < vStart
      unfold constrain at heq
      split_ifs at heq with hc
      · -- clamped: eE = vEnd, and vEnd < qEnd < vStart ≤ eS
        injection heq with h1 h23
        injection h23 with h2 h3
        subst h1; subst h2; subst h3
        exact keyLT_of_lt_of_le (keyLT_trans _ _ _ hc h)
          (keyLE_right_keyMax qStart vStart)
      · injection heq with h1 h23
        injection h23 with h2 h3
        subst h1; subst h2; subst h3
        exact keyLT_of_lt_of_le h (keyLE_right_keyMax qStart vStart)
    · -- query entirely above: vEnd < qStart ≤ qEnd, so the end is clamped
      have hc : keyLT vEnd qEnd = true := keyLT_of_lt_of_le h hq
      unfold constrain at heq
      rw [if_pos hc] at heq
      injection heq with h1 h23
      injection h23 with h2 h3
      subst h1; subst h2; subst h3
      exact keyLT_of_lt_of_le h (keyLE_left_keyMax qStart vStart)
  refine ⟨hlt, ?_⟩
  intro table
  unfold scanKeys
  rw [List.filter_eq_nil_iff]
  intro k _
  simp [inEffBounds_of_empty hlt k]

/-- Witness for C6: the testdata vector `constrain a,aa,false` against
virtual bounds `[b,c]` — no overlap; the effective bounds come back reversed
and a scan over a concrete table yields nothing. -/
theorem constrain_no_overlap_witness :
    (keyLE [97] [97, 97] = true ∧ keyLT [97, 97] [98] = true ∧
      constrain [98] [99] [97] [97, 97] false = ([98], [97, 97], false)) ∧
    (keyLT [97, 97] [98] = true ∧
      scanKeys [[97], [98], [98, 98], [99], [100]] [98] [97, 97] false = []) :=
  ⟨⟨by decide, by decide, by decide⟩,
   ⟨(constrain_no_overlap [98] [99] [97] [97, 97] false [98] [97, 97] false
      (by decide) (Or.inl (by decide)) (by decide)).1,
    (constrain_no_overlap [98] [99] [97] [97, 97] false [98] [97, 97] false
      (by decide) (Or.inl (by decide)) (by decide)).2
      [[97], [98], [98, 98], [99], [100]]⟩⟩

/-! ## Internal records and the ingestion point-record pipeline
(`metamorphic/build.go`, `writeSSTForIngestion`) -/

/-- Internal record kinds, with the numeric codes pebble assigns them
(`internal/base`; the codes order the kind tie-break inside a trailer). -/
inductive KeyKind where
  | DEL
  | SET
  | MERGE
  | SINGLEDEL
  | RANGEDEL
  | SETWITHDEL
  | RANGEKEYSET
  | RANGEKEYUNSET
  | RANGEKEYDEL
  | DELSIZED
deriving DecidableEq, Repr

def kindCode : KeyKind → Nat
  | .DEL => 0
  | .SET => 1
  | .MERGE => 2
  | .SINGLEDEL => 7
  | .RANGEDEL => 15
  | .SETWITHDEL => 18
  | .RANGEKEYSET => 21
  | .RANGEKEYUNSET => 22
  | .RANGEKEYDEL => 23
  | .DELSIZED => 25

theorem kindCode_lt_256 (k : KeyKind) : kindCode k < 256 := by
  cases k <;> decide

/-- An internal key: user key, sequence number, kind. -/
structure InternalKey where
  userKey : List Nat
  seqNum : Nat
  kind : KeyKind
deriving DecidableEq, Repr

/-- The trailer packs sequence number and kind, `seqNum << 8 | kind`. -/
def InternalKey.trailer (k : InternalKey) : Nat := k.seqNum * 256 + kindCode k.kind

/-- A point record: internal key plus (materialized) value bytes. -/
structure PointRec where
  key : InternalKey
  value : List Nat
deriving DecidableEq, Repr

/-- The reserved `Max` sequence number, `2^56 - 1`, used only as an exclusive
end-of-range sentinel (spec §3; printed as `#inf` / `72057594037927935` in the
testdata). -/
def maxSeqNum : Nat := 2 ^ 56 - 1

/-- Modelled from the spec: the comparator's suffix boundary (`Split`). The
test comparator splits a key at its `@` (byte 64) suffix marker; the prefix is
everything before the first `@`. The comparator itself is an external
collaborator of the excerpt. -/
def prefixOfKey (k : List Nat) : List Nat := k.takeWhile (fun b => b ≠ 64)

/-- The identity key of a record for deduplication: the full user key, or its
comparator-defined prefix in unique-prefixes mode (`build.go` lines 66-75). -/
def identityKey (uniquePrefixes : Bool) (k : List Nat) : List Nat :=
  if uniquePrefixes then prefixOfKey k else k

/-- Configuration of one ingestion build (`writeSSTForIngestion` arguments). -/
structure BuildConfig where
  uniquePrefixes : Bool
  preRepl : Option (List Nat)
  sufRepl : Option (List Nat)
  targetFMV : Nat
deriving DecidableEq, Repr

/-- The format major version that introduced the size-annotated delete kind
(`pebble.FormatDeleteSizedAndObsolete`); only its relative order to a target
version matters here. -/
def formatDeleteSizedAndObsolete : Nat := 16

/-- `outputKey` from `writeSSTForIngestion` (lines 49-61): apply the
synthetic prefix replacement, then replace the suffix after the comparator
split point. With no transform configured the key is returned unchanged
(cloned). -/
def outputKey (cfg : BuildConfig) (k : List Nat) : List Nat :=
  let k1 := match cfg.preRepl with
    | some p => p ++ k
    | none => k
  match cfg.sufRepl with
  | some s => prefixOfKey k1 ++ s
  | none => k1

/-- Per-record normalization in the point loop (lines 79-92): reset the
sequence number to `Zero`; if the target format predates `DELSIZED` and the
record uses it, translate to a plain `DEL` with empty value; then rewrite the
user key through `outputKey`. -/
def processRecord (cfg : BuildConfig) (r : PointRec) : PointRec :=
  let translate := cfg.targetFMV < formatDeleteSizedAndObsolete ∧ r.key.kind = .DELSIZED
  { key :=
      { userKey := outputKey cfg r.key.userKey
        seqNum := 0
        kind := if translate then .DEL else r.key.kind }
    value := if translate then [] else r.value }

/-- The deduplication loop of `writeSSTForIngestion` (lines 63-77):
`last` is the user key of the last record emitted (`lastUserKey`); a record
whose identity key equals the last emitted identity key is skipped. -/
def dedupPoints (uniquePrefixes : Bool) :
    Option (List Nat) → List PointRec → List PointRec
  | _, [] => []
  | none, r :: rs => r :: dedupPoints uniquePrefixes (some r.key.userKey) rs
  | some lk, r :: rs =>
    if identityKey uniquePrefixes lk = identityKey uniquePrefixes r.key.userKey then
      dedupPoints uniquePrefixes (some lk) rs
    else
      r :: dedupPoints uniquePrefixes (some r.key.userKey) rs

/-- The point records the ingestion build writes to the output table, in
order: deduplicate, then normalize each survivor. -/
def writePoints (cfg : BuildConfig) (recs : List PointRec) : List PointRec :=
  (dedupPoints cfg.uniquePrefixes none recs).map (processRecord cfg)

/-- A stream partitioned into groups of records sharing one identity key:
each group is a head record plus the later records with an equal identity
key. This is the shape of any stream that is sorted per user key. -/
def flattenGroups : List (PointRec × List PointRec) → List PointRec
  | [] => []
  | g :: gs => (g.1 :: g.2) ++ flattenGroups gs

theorem dedupPoints_skip_group (up : Bool) (lk : List Nat) :
    ∀ tl rest, (∀ r ∈ tl, identityKey up r.key.userKey = identityKey up lk) →
      dedupPoints up (some lk) (tl ++ rest) = dedupPoints up (some lk) rest := by
  intro tl
  induction tl with
  | nil => intro rest _; rfl
  | cons r tl ih =>
    intro rest hsame
    have hr : identityKey up r.key.userKey = identityKey up lk := hsame r (by simp)
    have : dedupPoints up (some lk) ((r :: tl) ++ rest) =
        dedupPoints up (some lk) (tl ++ rest) := by
      simp only [List.cons_append, dedupPoints, hr.symm, if_pos, List.append_eq]
    rw [this]
    exact ih rest (fun x hx => hsame x (by simp [hx]))

theorem dedupPoints_groups_aux (up : Bool) :
    ∀ gs lk,
      (∀ g ∈ gs, ∀ r ∈ g.2,
        identityKey up r.key.userKey = identityKey up g.1.key.userKey) →
      (gs.map (fun g => identityKey up g.1.key.userKey)).Pairwise (· ≠ ·) →
      (∀ g ∈ gs, identityKey up g.1.key.userKey ≠ identityKey up lk) →
      dedupPoints up (some lk) (flattenGroups gs) = gs.map Prod.fst := by
  intro gs
  induction gs with
  | nil => intro lk _ _ _; rfl
  | cons g gs ih =>
    intro lk hsame hdist hne
    obtain ⟨h, tl⟩ := g
    have hhd : identityKey up lk ≠ identityKey up h.key.userKey :=
      fun e => hne (h, tl) (by simp) e.symm
    have step : dedupPoints up (some lk) (flattenGroups ((h, tl) :: gs)) =
        h :: dedupPoints up (some h.key.userKey) (tl ++ flattenGroups gs) := by
      simp only [flattenGroups, List.cons_append, dedupPoints, hhd, if_neg,
        not_false_iff, List.append_eq]
    rw [step,
      dedupPoints_skip_group up h.key.userKey tl (flattenGroups gs)
        (fun r hr => hsame (h, tl) (by simp) r hr),
      ih h.key.userKey
        (fun g hg r hr => hsame g (by simp [hg]) r hr)
        (List.Pairwise.of_cons hdist)
        (fun g hg => (List.rel_of_pairwise_cons hdist (List.mem_map_of_mem _ hg)).symm)]
    simp

/-- Claim C1: for an input stream of point records that is sorted so that
records with an equal identity key are contiguous (head of each group first
in source order) and distinct groups have distinct identity keys, the built
table contains exactly one record per distinct identity key — the first one
in source order — and every later record with an equal identity key is
dropped. -/
theorem writePoints_dedup (cfg : BuildConfig)
    (gs : List (PointRec × List PointRec))
    (hsame : ∀ g ∈ gs, ∀ r ∈ g.2,
      identityKey cfg.uniquePrefixes r.key.userKey =
        identityKey cfg.uniquePrefixes g.1.key.userKey)
    (hdist : (gs.map (fun g => identityKey cfg.uniquePrefixes g.1.key.userKey)).Pairwise
      (· ≠ ·)) :
    dedupPoints cfg.uniquePrefixes none (flattenGroups gs) = gs.map Prod.fst ∧
    writePoints cfg (flattenGroups gs) =
      (gs.map Prod.fst).map (processRecord cfg) ∧
    (gs.map (fun g => identityKey cfg.uniquePrefixes g.1.key.userKey)).Nodup := by
  have hmain : dedupPoints cfg.uniquePrefixes none (flattenGroups gs) =
      gs.map Prod.fst := by
    cases gs with
    | nil => rfl
    | cons g gs =>
      obtain ⟨h, tl⟩ := g
      have step : dedupPoints cfg.uniquePrefixes none (flattenGroups ((h, tl) :: gs)) =
          h :: dedupPoints cfg.uniquePrefixes (some h.key.userKey)
            (tl ++ flattenGroups gs) := by
        simp only [flattenGroups, List.cons_append, dedupPoints, List.append_eq]
      rw [step,
        dedupPoints_skip_group cfg.uniquePrefixes h.key.userKey tl (flattenGroups gs)
          (fun r hr => hsame (h, tl) (by simp) r hr),
        dedupPoints_groups_aux cfg.uniquePrefixes gs h.key.userKey
          (fun g hg r hr => hsame g (by simp [hg]) r hr)
          (List.Pairwise.of_cons hdist)
          (fun g hg => (List.rel_of_pairwise_cons hdist (List.mem_map_of_mem _ hg)).symm)]
      simp
  refine ⟨hmain, ?_, hdist⟩
  unfold writePoints
  rw [hmain]

/-- Witness for C1: a three-group stream (full-key mode); the duplicate of
key `a` is dropped and the group heads survive in source order. -/
theorem writePoints_dedup_witness :
    ((∀ g ∈ [((⟨⟨[97], 9, KeyKind.SET⟩, [1]⟩ : PointRec),
        [(⟨⟨[97], 5, KeyKind.SET⟩, [2]⟩ : PointRec)]),
       ((⟨⟨[98], 7, KeyKind.DEL⟩, []⟩ : PointRec), ([] : List PointRec))],
        ∀ r ∈ g.2, identityKey false r.key.userKey = identityKey false g.1.key.userKey) ∧
      ([((⟨⟨[97], 9, KeyKind.SET⟩, [1]⟩ : PointRec),
        [(⟨⟨[97], 5, KeyKind.SET⟩, [2]⟩ : PointRec)]),
       ((⟨⟨[98], 7, KeyKind.DEL⟩, []⟩ : PointRec), ([] : List PointRec))].map
          (fun g => identityKey false g.1.key.userKey)).Pairwise (· ≠ ·)) ∧
    (dedupPoints false none (flattenGroups
        [((⟨⟨[97], 9, KeyKind.SET⟩, [1]⟩ : PointRec),
          [(⟨⟨[97], 5, KeyKind.SET⟩, [2]⟩ : PointRec)]),
         ((⟨⟨[98], 7, KeyKind.DEL⟩, []⟩ : PointRec), ([] : List PointRec))]) =
      [(⟨⟨[97], 9, KeyKind.SET⟩, [1]⟩ : PointRec),
       (⟨⟨[98], 7, KeyKind.DEL⟩, []⟩ : PointRec)]) :=
  ⟨⟨by decide, by decide⟩,
   (writePoints_dedup ⟨false, none, none, 20⟩
      [((⟨⟨[97], 9, KeyKind.SET⟩, [1]⟩ : PointRec),
        [(⟨⟨[97], 5, KeyKind.SET⟩, [2]⟩ : PointRec)]),
       ((⟨⟨[98], 7, KeyKind.DEL⟩, []⟩ : PointRec), ([] : List PointRec))]
      (by decide) (by decide)).1⟩

/-- Claim C5: every point record surviving deduplication is written with its
sequence number reset to the reserved `Zero` sentinel, whatever sequence
number it carried in the input. -/
theorem writePoints_seqnum_zero (cfg : BuildConfig) (recs : List PointRec)
    (r : PointRec) (hr : r ∈ writePoints cfg recs) : r.key.seqNum = 0 := by
  unfold writePoints at hr
  obtain ⟨s, _, rfl⟩ := List.mem_map.mp hr
  rfl

/-- Witness for C5: a record carrying sequence number 42 in the input is
written with sequence number 0. -/
theorem writePoints_seqnum_zero_witness :
    ((⟨⟨[97], 0, KeyKind.SET⟩, [5]⟩ : PointRec) ∈
      writePoints ⟨false, none, none, 20⟩ [⟨⟨[97], 42, KeyKind.SET⟩, [5]⟩]) ∧
    (⟨⟨[97], 0, KeyKind.SET⟩, [5]⟩ : PointRec).key.seqNum = 0 :=
  ⟨by decide,
   writePoints_seqnum_zero ⟨false, none, none, 20⟩ [⟨⟨[97], 42, KeyKind.SET⟩, [5]⟩]
     ⟨⟨[97], 0, KeyKind.SET⟩, [5]⟩ (by decide)⟩

/-- Claim C8: a surviving size-annotated delete is translated to a plain
delete with empty value exactly when the target format version predates
`DELSIZED` support; all other records — and size-annotated deletes under a
supporting version — keep their kind and value. -/
theorem processRecord_delsized (cfg : BuildConfig) (r : PointRec) :
    (cfg.targetFMV < formatDeleteSizedAndObsolete → r.key.kind = .DELSIZED →
      (processRecord cfg r).key.kind = .DEL ∧ (processRecord cfg r).value = []) ∧
    (r.key.kind ≠ .DELSIZED →
      (processRecord cfg r).key.kind = r.key.kind ∧
      (processRecord cfg r).value = r.value) ∧
    (formatDeleteSizedAndObsolete ≤ cfg.targetFMV →
      (processRecord cfg r).key.kind = r.key.kind ∧
      (processRecord cfg r).value = r.value) := by
  refine ⟨?_, ?_, ?_⟩
  · intro hfmv hkind
    simp [processRecord, hfmv, hkind]
  · intro hkind
    simp [processRecord, hkind]
  · intro hfmv
    have : ¬ cfg.targetFMV < formatDeleteSizedAndObsolete := by omega
    simp [processRecord, this]

/-- Witness for C8: under target format version 15 a `DELSIZED` record
becomes a plain `DEL` with empty value; under version 20 it is kept. -/
theorem processRecord_delsized_witness :
    ((15 : Nat) < formatDeleteSizedAndObsolete ∧
      (⟨⟨[97], 3, KeyKind.DELSIZED⟩, [9]⟩ : PointRec).key.kind = .DELSIZED) ∧
    ((processRecord ⟨false, none, none, 15⟩ ⟨⟨[97], 3, .DELSIZED⟩, [9]⟩).key.kind = .DEL ∧
      (processRecord ⟨false, none, none, 15⟩ ⟨⟨[97], 3, .DELSIZED⟩, [9]⟩).value = []) ∧
    ((processRecord ⟨false, none, none, 20⟩ ⟨⟨[97], 3, .DELSIZED⟩, [9]⟩).key.kind =
        (⟨⟨[97], 3, KeyKind.DELSIZED⟩, [9]⟩ : PointRec).key.kind ∧
      (processRecord ⟨false, none, none, 20⟩ ⟨⟨[97], 3, .DELSIZED⟩, [9]⟩).value = [9]) :=
  ⟨⟨by decide, by decide⟩,
   (processRecord_delsized ⟨false, none, none, 15⟩ ⟨⟨[97], 3, .DELSIZED⟩, [9]⟩).1
     (by decide) (by decide),
   (processRecord_delsized ⟨false, none, none, 20⟩ ⟨⟨[97], 3, .DELSIZED⟩, [9]⟩).2.2
     (by decide)⟩

/-! ## Range-key coalescing in the ingestion build
(`writeSSTForIngestion` lines 128-140; `rangekey.Coalesce` and
`SortKeysByTrailer` are collaborators outside the excerpt, modelled from
spec §4.3). -/

/-- One operation of a range-key span: `(sequenceNumber, kind, suffix,
payload)`. -/
structure RangeKeyOp where
  seqNum : Nat
  kind : KeyKind
  suffix : List Nat
  value : List Nat
deriving DecidableEq, Repr

/-- The trailer of a range-key operation, `seqNum << 8 | kind`. -/
def RangeKeyOp.trailer (k : RangeKeyOp) : Nat := k.seqNum * 256 + kindCode k.kind

/-- The canonical trailer order: descending trailer (newest first). -/
def trailerGE (a b : RangeKeyOp) : Prop := b.trailer ≤ a.trailer

instance : DecidableRel trailerGE := fun a b => Nat.decLe b.trailer a.trailer

instance : IsTotal RangeKeyOp trailerGE :=
  ⟨fun a b => Nat.le_total b.trailer a.trailer⟩

instance : IsTrans RangeKeyOp trailerGE :=
  ⟨fun _ _ _ hab hbc => Nat.le_trans hbc hab⟩

/-- Modelled from the spec: `RangeAnnotationCoalescer` (§4.3). Operations
arrive newest-intent first; the latest intent wins per suffix, and a
range-key delete shadows every older operation. The output carries at most
one operation per suffix. -/
def coalesceOps : List RangeKeyOp → List (List Nat) → List RangeKeyOp
  | [], _ => []
  | k :: ks, seen =>
    if k.suffix ∈ seen then coalesceOps ks seen
    else if k.kind = .RANGEKEYDEL then [k]
    else k :: coalesceOps ks (k.suffix :: seen)

/-- Re-stamp an operation with the `Zero` sequence number, as
`collapsed.Keys[i].Trailer = MakeTrailer(0, kind)` does (line 137). -/
def restampZero (k : RangeKeyOp) : RangeKeyOp :=
  { k with seqNum := 0 }

/-- A range-key span as consumed and emitted by the ingestion build. -/
structure RangeKeySpan where
  startK : List Nat
  endK : List Nat
  ops : List RangeKeyOp
deriving DecidableEq, Repr

/-- The range-key span the ingestion build encodes for one input span
(lines 128-140): transform the bounds, coalesce the operations, re-stamp
them with sequence number `Zero`, and re-sort by trailer. -/
def processRangeKeySpan (cfg : BuildConfig) (sp : RangeKeySpan) : RangeKeySpan :=
  { startK := outputKey cfg sp.startK
    endK := outputKey cfg sp.endK
    ops := List.insertionSort trailerGE ((coalesceOps sp.ops []).map restampZero) }

theorem coalesceOps_suffixes : ∀ ks seen,
    (coalesceOps ks seen).Pairwise (fun a b => a.suffix ≠ b.suffix) ∧
    ∀ k ∈ coalesceOps ks seen, k.suffix ∉ seen := by
  intro ks
  induction ks with
  | nil => intro seen; exact ⟨List.Pairwise.nil, by simp [coalesceOps]⟩
  | cons k ks ih =>
    intro seen
    by_cases hseen : k.suffix ∈ seen
    · simpa [coalesceOps, hseen] using ih seen
    · by_cases hdel : k.kind = .RANGEKEYDEL
      · refine ⟨?_, ?_⟩
        · simp [coalesceOps, hseen, hdel]
        · intro x hx
          simp only [coalesceOps, if_neg hseen, if_pos hdel, List.mem_singleton] at hx
          subst hx
          exact hseen
      · obtain ⟨ihp, ihs⟩ := ih (k.suffix :: seen)
        have hout : coalesceOps (k :: ks) seen =
            k :: coalesceOps ks (k.suffix :: seen) := by
          simp [coalesceOps, hseen, hdel]
        refine ⟨?_, ?_⟩
        · rw [hout]
          refine List.Pairwise.cons ?_ ihp
          intro b hb
          have := ihs b hb
          simp only [List.mem_cons, not_or] at this
          exact fun e => this.1 e.symm
        · rw [hout]
          intro x hx
          rcases List.mem_cons.mp hx with rfl | hx
          · exact hseen
          · have := ihs x hx
            simp only [List.mem_cons, not_or] at this
            exact this.2

/-- Claim C9: for every range-key span consumed by the ingestion build, the
encoded output span carries at most one operation per `(kind, suffix)` pair,
every surviving operation carries sequence number `Zero`, and the operations
are sorted by the canonical trailer order. -/
theorem processRangeKeySpan_spec (cfg : BuildConfig) (sp : RangeKeySpan) :
    (processRangeKeySpan cfg sp).ops.Pairwise
      (fun a b => ¬(a.kind = b.kind ∧ a.suffix = b.suffix)) ∧
    (∀ k ∈ (processRangeKeySpan cfg sp).ops, k.seqNum = 0) ∧
    List.Sorted trailerGE (processRangeKeySpan cfg sp).ops := by
  have hperm : List.Perm
      (List.insertionSort trailerGE ((coalesceOps sp.ops []).map restampZero))
      ((coalesceOps sp.ops []).map restampZero) :=
    List.perm_insertionSort trailerGE _
  refine ⟨?_, ?_, ?_⟩
  · have hp0 : (coalesceOps sp.ops []).Pairwise (fun a b => a.suffix ≠ b.suffix) :=
      (coalesceOps_suffixes sp.ops []).1
    have hp1 : ((coalesceOps sp.ops []).map restampZero).Pairwise
        (fun a b => a.suffix ≠ b.suffix) := by
      rw [List.pairwise_map]
      exact hp0
    have hp2 : (processRangeKeySpan cfg sp).ops.Pairwise
        (fun a b => a.suffix ≠ b.suffix) :=
      ((hperm.pairwise_iff (fun h => Ne.symm h)).mpr hp1)
    exact hp2.imp (fun h hc => h hc.2)
  · intro k hk
    have hk2 : k ∈ (coalesceOps sp.ops []).map restampZero := hperm.mem_iff.mp hk
    obtain ⟨x, _, rfl⟩ := List.mem_map.mp hk2
    rfl
  · exact List.sorted_insertionSort trailerGE _

/-- Witness for C9: a span whose operations set, re-set and unset the same
suffix; one operation per suffix survives, re-stamped to sequence number 0
and sorted by trailer. -/
theorem processRangeKeySpan_spec_witness :
    ((processRangeKeySpan ⟨false, none, none, 20⟩
        ⟨[97], [100],
          [⟨9, .RANGEKEYSET, [64, 49], [5]⟩, ⟨7, .RANGEKEYUNSET, [64, 49], []⟩,
           ⟨6, .RANGEKEYSET, [64, 50], [8]⟩]⟩).ops =
      [⟨0, .RANGEKEYSET, [64, 49], [5]⟩, ⟨0, .RANGEKEYSET, [64, 50], [8]⟩]) ∧
    (∀ k ∈ (processRangeKeySpan ⟨false, none, none, 20⟩
        ⟨[97], [100],
          [⟨9, .RANGEKEYSET, [64, 49], [5]⟩, ⟨7, .RANGEKEYUNSET, [64, 49], []⟩,
           ⟨6, .RANGEKEYSET, [64, 50], [8]⟩]⟩).ops, k.seqNum = 0) :=
  ⟨by decide,
   (processRangeKeySpan_spec ⟨false, none, none, 20⟩
      ⟨[97], [100],
        [⟨9, .RANGEKEYSET, [64, 49], [5]⟩, ⟨7, .RANGEKEYUNSET, [64, 49], []⟩,
         ⟨6, .RANGEKEYSET, [64, 50], [8]⟩]⟩).2.1⟩

/-! ## Virtual tables and the exclusive-sentinel rule (§4.6)

Modelled from the spec: the virtual-table iterators are collaborators outside
the excerpt; only their test vectors (`sstable/testdata/virtual_reader`,
test 6) are in the source. Point visibility is decided by internal-key order
against the virtual bounds: user key ascending, then trailer descending, so a
real record at the boundary user key sorts after an end bound carrying the
`Max` sentinel and is suppressed. -/

/-- Internal-key order `a ≤ b`: user key bytewise ascending, then trailer
descending. -/
def ikLE (a b : InternalKey) : Bool :=
  if a.userKey = b.userKey then decide (b.trailer ≤ a.trailer)
  else keyLT a.userKey b.userKey

/-- An end bound is an exclusive sentinel when it carries the reserved `Max`
sequence number. -/
def isExclusiveSentinel (k : InternalKey) : Bool := decide (k.seqNum = maxSeqNum)

/-- A range-deletion span (start inclusive, end exclusive). -/
structure RDSpan where
  startK : List Nat
  endK : List Nat
deriving DecidableEq, Repr

/-- A virtual table: backing point records and range-deletion spans plus the
virtual bounds (internal keys). -/
structure VirtualTable where
  points : List PointRec
  rangeDels : List RDSpan
  lower : InternalKey
  upper : InternalKey
deriving DecidableEq, Repr

/-- Modelled from the spec: point-key iteration over a virtual table yields
exactly the backing records within the internal-key bounds. -/
def virtPoints (vt : VirtualTable) : List PointRec :=
  vt.points.filter (fun r => ikLE vt.lower r.key && ikLE r.key vt.upper)

/-- Modelled from the spec: a compaction-style iterator is point-only and
enforces the same virtual bounds. -/
def virtCompactionKeys (vt : VirtualTable) : List InternalKey :=
  (virtPoints vt).map PointRec.key

/-- Modelled from the spec: truncate a range-deletion span to the virtual
bounds (in place, never left overlapping the boundary); an emptied span is
dropped. -/
def truncateSpan (vt : VirtualTable) (s : RDSpan) : Option RDSpan :=
  let s' : RDSpan := ⟨keyMax s.startK vt.lower.userKey, keyMin s.endK vt.upper.userKey⟩
  if keyLT s'.startK s'.endK then some s' else none

/-- Modelled from the spec: the range-deletion span iterator of a virtual
table, truncated to the virtual bounds at open time. -/
def virtRangeDels (vt : VirtualTable) : List RDSpan :=
  vt.rangeDels.filterMap (truncateSpan vt)

/-- Claim C2: when the virtual end bound carries the `Max` sentinel, neither
point iteration nor compaction-style (point-only) iteration ever yields a
real record (one with a real, non-`Max` sequence number) whose user key
equals the boundary key, while the range-deletion span iterator still
reports a span ending exactly at that boundary. -/
theorem virtual_exclusive_sentinel (vt : VirtualTable)
    (hsent : isExclusiveSentinel vt.upper = true) :
    (∀ r ∈ virtPoints vt, r.key.seqNum < maxSeqNum →
      r.key.userKey ≠ vt.upper.userKey) ∧
    (∀ k ∈ virtCompactionKeys vt, k.seqNum < maxSeqNum →
      k.userKey ≠ vt.upper.userKey) ∧
    (∀ s ∈ vt.rangeDels, keyLE vt.lower.userKey s.startK = true →
      keyLE s.endK vt.upper.userKey = true → keyLT s.startK s.endK = true →
      s ∈ virtRangeDels vt) := by
  have hmax : vt.upper.seqNum = maxSeqNum := by
    simpa [isExclusiveSentinel] using hsent
  have hpoint : ∀ r ∈ virtPoints vt, r.key.seqNum < maxSeqNum →
      r.key.userKey ≠ vt.upper.userKey := by
    intro r hr hseq heq
    have hmem := List.of_mem_filter hr
    simp only [Bool.and_eq_true] at hmem
    have hle : ikLE r.key vt.upper = true := hmem.2
    rw [ikLE, if_pos heq] at hle
    have htr : vt.upper.trailer ≤ r.key.trailer := by simpa using hle
    have h1 : kindCode r.key.kind < 256 := kindCode_lt_256 _
    have h2 : kindCode vt.upper.kind < 256 := kindCode_lt_256 _
    unfold InternalKey.trailer at htr
    rw [hmax] at htr
    -- r.seqNum < maxSeqNum forces r's trailer strictly below the sentinel's
    have : r.key.seqNum * 256 + kindCode r.key.kind < maxSeqNum * 256 := by
      calc r.key.seqNum * 256 + kindCode r.key.kind
          < (r.key.seqNum + 1) * 256 := by omega
        _ ≤ maxSeqNum * 256 := Nat.mul_le_mul_right 256 (by omega)
    omega
  refine ⟨hpoint, ?_, ?_⟩
  · intro k hk hseq heq
    obtain ⟨r, hr, rfl⟩ := List.mem_map.mp hk
    exact hpoint r hr hseq heq
  · intro s hs hlow hhigh hne
    have h1 : keyMax s.startK vt.lower.userKey = s.startK := keyMax_eq_left hlow
    have h2 : keyMin s.endK vt.upper.userKey = s.endK := keyMin_eq_left hhigh
    refine List.mem_filterMap.mpr ⟨s, hs, ?_⟩
    unfold truncateSpan
    simp only [h1, h2, hne, if_pos]

/-- Witness for C2: test 6 of the virtual-reader testdata — points
a#1,SET d#2,SET e#3,SET f#5,SET with range deletion [d,e), virtualized to
bounds `[a#1,SET, e#Max,RANGEDEL]`. Record e#3 at the boundary key is
suppressed, and the span [d,e) is still reported. -/
theorem virtual_exclusive_sentinel_witness :
    (isExclusiveSentinel (⟨[101], maxSeqNum, .RANGEDEL⟩ : InternalKey) = true ∧
      (⟨⟨[100], 2, .SET⟩, [100]⟩ : PointRec) ∈ virtPoints
        ⟨[⟨⟨[97], 1, .SET⟩, [97]⟩, ⟨⟨[100], 2, .SET⟩, [100]⟩,
          ⟨⟨[101], 3, .SET⟩, [101]⟩, ⟨⟨[102], 5, .SET⟩, [102]⟩],
         [⟨[100], [101]⟩], ⟨[97], 1, .SET⟩, ⟨[101], maxSeqNum, .RANGEDEL⟩⟩ ∧
      (2 : Nat) < maxSeqNum) ∧
    ((⟨⟨[100], 2, .SET⟩, [100]⟩ : PointRec).key.userKey ≠ [101] ∧
      (⟨[100], [101]⟩ : RDSpan) ∈ virtRangeDels
        ⟨[⟨⟨[97], 1, .SET⟩, [97]⟩, ⟨⟨[100], 2, .SET⟩, [100]⟩,
          ⟨⟨[101], 3, .SET⟩, [101]⟩, ⟨⟨[102], 5, .SET⟩, [102]⟩],
         [⟨[100], [101]⟩], ⟨[97], 1, .SET⟩, ⟨[101], maxSeqNum, .RANGEDEL⟩⟩) :=
  ⟨⟨by decide, by decide, by decide⟩,
   (virtual_exclusive_sentinel
      ⟨[⟨⟨[97], 1, .SET⟩, [97]⟩, ⟨⟨[100], 2, .SET⟩, [100]⟩,
        ⟨⟨[101], 3, .SET⟩, [101]⟩, ⟨⟨[102], 5, .SET⟩, [102]⟩],
       [⟨[100], [101]⟩], ⟨[97], 1, .SET⟩, ⟨[101], maxSeqNum, .RANGEDEL⟩⟩
      (by decide)).1 ⟨⟨[100], 2, .SET⟩, [100]⟩ (by decide) (by decide),
   (virtual_exclusive_sentinel
      ⟨[⟨⟨[97], 1, .SET⟩, [97]⟩, ⟨⟨[100], 2, .SET⟩, [100]⟩,
        ⟨⟨[101], 3, .SET⟩, [101]⟩, ⟨⟨[102], 5, .SET⟩, [102]⟩],
       [⟨[100], [101]⟩], ⟨[97], 1, .SET⟩, ⟨[101], maxSeqNum, .RANGEDEL⟩⟩
      (by decide)).2.2 ⟨[100], [101]⟩ (by decide) (by decide) (by decide)
      (by decide)⟩

/-- Validation against test 6 of `sstable/testdata/virtual_reader`: the
visible points are exactly a#1 and d#2 (e#3 at the sentinel boundary and
f#5 beyond it are suppressed), and the span iterator reports d-e. -/
theorem virtual_reader_test6 :
    virtPoints
      ⟨[⟨⟨[97], 1, .SET⟩, [97]⟩, ⟨⟨[100], 2, .SET⟩, [100]⟩,
        ⟨⟨[101], 3, .SET⟩, [101]⟩, ⟨⟨[102], 5, .SET⟩, [102]⟩],
       [⟨[100], [101]⟩], ⟨[97], 1, .SET⟩, ⟨[101], maxSeqNum, .RANGEDEL⟩⟩ =
      [⟨⟨[97], 1, .SET⟩, [97]⟩, ⟨⟨[100], 2, .SET⟩, [100]⟩] ∧
    virtRangeDels
      ⟨[⟨⟨[97], 1, .SET⟩, [97]⟩, ⟨⟨[100], 2, .SET⟩, [100]⟩,
        ⟨⟨[101], 3, .SET⟩, [101]⟩, ⟨⟨[102], 5, .SET⟩, [102]⟩],
       [⟨[100], [101]⟩], ⟨[97], 1, .SET⟩, ⟨[101], maxSeqNum, .RANGEDEL⟩⟩ =
      [⟨[100], [101]⟩] := by
  constructor <;> decide

/-! ## Exit paths of `writeSSTForIngestion` (C4)

The function registers deferred closes for the point, range-deletion and
range-key iterators (lines 42-47, in that order, through idempotent
`CloseHelper` wrappers), and also closes each explicitly after its loop
(lines 97, 111, 147). Deferred functions run last-registered-first, and the
error of a deferred close is discarded. `runBuild` transcribes this control
flow over an environment that fixes which step (if any) fails; it returns
the surfaced error and the sequence of underlying close calls that actually
reach each iterator (the `CloseHelper` makes the second close of an iterator
a no-op). -/

/-- Which iterator an underlying close call reaches. -/
inductive CloseEv where
  | pt
  | rd
  | rk
deriving DecidableEq, Repr

/-- One execution environment: for each fallible step of
`writeSSTForIngestion`, `none` means the step succeeds and `some e` means it
fails with error `e`. -/
structure BuildEnv where
  pointLoopErr : Option Nat
  pointCloseErr : Option Nat
  rdLoopErr : Option Nat
  rdCloseErr : Option Nat
  rkLoopErr : Option Nat
  rkCloseErr : Option Nat
  writerCloseErr : Option Nat
  metaErr : Option Nat
deriving DecidableEq, Repr

/-- The deferred cleanup: deferred `Close` calls run in reverse registration
order (range-key, then range-deletion, then point), and each reaches the
underlying iterator only if it was not already closed explicitly. -/
def deferTrace (ptC rdC rkC : Bool) : List CloseEv :=
  (if rkC then [] else [CloseEv.rk]) ++ (if rdC then [] else [CloseEv.rd]) ++
    (if ptC then [] else [CloseEv.pt])

/-- Transcription of `writeSSTForIngestion`'s exit paths: the surfaced error
and the order in which the three iterators are actually closed. -/
def runBuild (e : BuildEnv) : Option Nat × List CloseEv :=
  match e.pointLoopErr with
  | some er => (some er, deferTrace false false false)
  | none =>
  match e.pointCloseErr with
  | some er => (some er, CloseEv.pt :: deferTrace true false false)
  | none =>
  match e.rdLoopErr with
  | some er => (some er, CloseEv.pt :: deferTrace true false false)
  | none =>
  match e.rdCloseErr with
  | some er => (some er, CloseEv.pt :: CloseEv.rd :: deferTrace true true false)
  | none =>
  match e.rkLoopErr with
  | some er => (some er, CloseEv.pt :: CloseEv.rd :: deferTrace true true false)
  | none =>
  match e.rkCloseErr with
  | some er => (some er, [CloseEv.pt, CloseEv.rd, CloseEv.rk])
  | none =>
  match e.writerCloseErr with
  | some er => (some er, [CloseEv.pt, CloseEv.rd, CloseEv.rk])
  | none =>
  match e.metaErr with
  | some er => (some er, [CloseEv.pt, CloseEv.rd, CloseEv.rk])
  | none => (none, [CloseEv.pt, CloseEv.rd, CloseEv.rk])

/-- The first non-nil error among the fallible steps, in program order. -/
def firstErr (e : BuildEnv) : Option Nat :=
  match e.pointLoopErr with
  | some er => some er
  | none =>
  match e.pointCloseErr with
  | some er => some er
  | none =>
  match e.rdLoopErr with
  | some er => some er
  | none =>
  match e.rdCloseErr with
  | some er => some er
  | none =>
  match e.rkLoopErr with
  | some er => some er
  | none =>
  match e.rkCloseErr with
  | some er => some er
  | none =>
  match e.writerCloseErr with
  | some er => some er
  | none => e.metaErr

/-- Counterexample for C4 as stated: on the exit path where the point loop
fails, the deferred cleanup closes the iterators in reverse registration
order — range-key first, then range-deletion, then point — not in the
claimed fixed order point, range-deletion, range-key. -/
theorem runBuild_close_order_counterexample :
    (runBuild ⟨some 7, none, none, none, none, none, none, none⟩).2 =
      [CloseEv.rk, CloseEv.rd, CloseEv.pt] ∧
    (runBuild ⟨some 7, none, none, none, none, none, none, none⟩).2 ≠
      [CloseEv.pt, CloseEv.rd, CloseEv.rk] := by
  constructor <;> decide

/-- Claim C4 (amended): on every exit path of the ingestion build all three
iterators are closed exactly once; on the success path (and on any path that
reaches the explicit closes) the explicit closes run point, range-deletion,
range-key, while iterators still unclosed at an early error exit are closed
by the deferred cleanup in reverse registration order (range-key,
range-deletion, point); the first non-nil error — whether from the main
build logic or from an explicit close — is the one surfaced, and close
errors during deferred cleanup never override it. -/
theorem runBuild_spec (e : BuildEnv) :
    (runBuild e).1 = firstErr e ∧
    ((runBuild e).2.count CloseEv.pt = 1 ∧ (runBuild e).2.count CloseEv.rd = 1 ∧
      (runBuild e).2.count CloseEv.rk = 1) ∧
    ((runBuild e).1 = none → (runBuild e).2 = [CloseEv.pt, CloseEv.rd, CloseEv.rk]) ∧
    ((runBuild e).2 = [CloseEv.pt, CloseEv.rd, CloseEv.rk] ∨
      (runBuild e).2 = [CloseEv.pt, CloseEv.rk, CloseEv.rd] ∨
      (runBuild e).2 = [CloseEv.rk, CloseEv.rd, CloseEv.pt]) := by
  obtain ⟨p1, p2, p3, p4, p5, p6, p7, p8⟩ := e
  cases p1 <;> cases p2 <;> cases p3 <;> cases p4 <;> cases p5 <;> cases p6 <;>
    cases p7 <;> cases p8 <;>
    simp [runBuild, firstErr, deferTrace, List.count_cons, List.count_nil]

/-- Witness for C4 (amended): a run where the explicit point close fails —
its error is surfaced, the remaining iterators are closed by the deferred
cleanup (range-key before range-deletion), and each iterator is closed
exactly once. -/
theorem runBuild_spec_witness :
    (runBuild ⟨none, some 3, none, none, none, none, none, none⟩).1 = some 3 ∧
    (runBuild ⟨none, some 3, none, none, none, none, none, none⟩).2 =
      [CloseEv.pt, CloseEv.rk, CloseEv.rd] ∧
    (runBuild ⟨none, some 3, none, none, none, none, none, none⟩).2.count
      CloseEv.pt = 1 :=
  ⟨by decide, by decide,
   (runBuild_spec ⟨none, some 3, none, none, none, none, none, none⟩).2.1.1⟩

/-! ## External-file ingestion validation (C7)

Modelled from the spec: the ingestion entry point itself is a collaborator
outside the excerpt; its observable behavior is fixed by the
`ingest-external` test vectors appended to `vfs/vfstest/open_files.go`
(overlap, suffixed bounds, reversed bounds, and too-old format version all
fail with a typed error and register nothing). -/

/-- A key carries a suffix when it contains the comparator's `@` marker. -/
def hasSuffixMarker (k : List Nat) : Bool := k.contains 64

/-- The typed validation errors of external-file ingestion setup. -/
inductive IngestError where
  | startKeyHasSuffix
  | endKeyHasSuffix
  | invalidBounds
  | overlappingRanges
  | fmvTooOldSynthPre
  | fmvTooOldSynthSuf
deriving DecidableEq, Repr

/-- One externally-built file submitted for ingestion: bounds
`[startK, endK)` plus optional requested prefix/suffix replacements. -/
structure ExternalFile where
  startK : List Nat
  endK : List Nat
  preRepl : Option (List Nat)
  sufRepl : Option (List Nat)
deriving DecidableEq, Repr

/-- The format major version that introduced synthetic prefix/suffix
ingestion (the testdata shows version 16 predates it). -/
def minFMVSynthetic : Nat := 17

/-- Modelled from the spec: per-file validation of external-ingestion
bounds and transform requests, each failure with its typed error. -/
def validateFile (fmv : Nat) (f : ExternalFile) : Option IngestError :=
  if hasSuffixMarker f.startK then some .startKeyHasSuffix
  else if hasSuffixMarker f.endK then some .endKeyHasSuffix
  else if keyLT f.startK f.endK = false then some .invalidBounds
  else if f.preRepl.isSome ∧ fmv < minFMVSynthetic then some .fmvTooOldSynthPre
  else if f.sufRepl.isSome ∧ fmv < minFMVSynthetic then some .fmvTooOldSynthSuf
  else none

/-- The first per-file validation failure across a batch, in order. -/
def firstFileError (fmv : Nat) : List ExternalFile → Option IngestError
  | [] => none
  | f :: fs =>
    match validateFile fmv f with
    | some e => some e
    | none => firstFileError fmv fs

/-- Two half-open key ranges overlap when the larger start sorts before the
smaller end. -/
def filesOverlap (a b : ExternalFile) : Bool :=
  keyLT (keyMax a.startK b.startK) (keyMin a.endK b.endK)

/-- Whether any two files of the batch have overlapping key ranges. -/
def anyOverlap : List ExternalFile → Bool
  | [] => false
  | f :: fs => fs.any (filesOverlap f) || anyOverlap fs

/-- Modelled from the spec: batch validation — per-file checks first, then
the cross-file overlap check. -/
def validateBatch (fmv : Nat) (batch : List ExternalFile) : Option IngestError :=
  match firstFileError fmv batch with
  | some e => some e
  | none => if anyOverlap batch then some .overlappingRanges else none

/-- Modelled from the spec: external-file ingestion setup. On any validation
failure the registered-table state is returned unchanged together with the
typed error; otherwise every file of the batch is registered. -/
def ingestExternal (st : List ExternalFile) (fmv : Nat) (batch : List ExternalFile) :
    List ExternalFile × Option IngestError :=
  match validateBatch fmv batch with
  | some e => (st, some e)
  | none => (st ++ batch, none)

theorem firstFileError_isSome_of_mem {fmv : Nat} :
    ∀ {batch : List ExternalFile}, (∃ f ∈ batch, validateFile fmv f ≠ none) →
      (firstFileError fmv batch).isSome = true := by
  intro batch
  induction batch with
  | nil => rintro ⟨f, hf, _⟩; simp at hf
  | cons g fs ih =>
    rintro ⟨f, hf, hval⟩
    rcases List.mem_cons.mp hf with rfl | hf2
    · cases hv : validateFile fmv f with
      | none => exact absurd hv hval
      | some e => simp [firstFileError, hv]
    · cases hv : validateFile fmv g with
      | none =>
        simp only [firstFileError, hv]
        exact ih ⟨f, hf2, hval⟩
      | some e => simp [firstFileError, hv]

/-- Claim C7: a validation failure — reversed bounds, suffixed start or end
key, overlapping ranges across the batch, or a format version predating a
requested prefix/suffix transform — causes external ingestion to fail with
the corresponding typed error and to register no file: the state is
returned unchanged on every failure. -/
theorem ingestExternal_validation (st : List ExternalFile) (fmv : Nat)
    (batch : List ExternalFile) :
    (∀ e, validateBatch fmv batch = some e →
      ingestExternal st fmv batch = (st, some e)) ∧
    ((∃ f ∈ batch, validateFile fmv f ≠ none) ∨ anyOverlap batch = true →
      (ingestExternal st fmv batch).2.isSome = true ∧
      (ingestExternal st fmv batch).1 = st) ∧
    (∀ f : ExternalFile, hasSuffixMarker f.startK = true →
      validateFile fmv f = some .startKeyHasSuffix) ∧
    (∀ f : ExternalFile, hasSuffixMarker f.startK = false →
      hasSuffixMarker f.endK = true → validateFile fmv f = some .endKeyHasSuffix) ∧
    (∀ f : ExternalFile, hasSuffixMarker f.startK = false →
      hasSuffixMarker f.endK = false → keyLT f.startK f.endK = false →
      validateFile fmv f = some .invalidBounds) ∧
    (firstFileError fmv batch = none → anyOverlap batch = true →
      validateBatch fmv batch = some .overlappingRanges) := by
  refine ⟨?_, ?_, ?_, ?_, ?_, ?_⟩
  · intro e he
    simp [ingestExternal, he]
  · intro hbad
    have hsome : (validateBatch fmv batch).isSome = true := by
      rcases hbad with hex | hov
      · have := firstFileError_isSome_of_mem hex
        unfold validateBatch
        cases hfe : firstFileError fmv batch with
        | none => rw [hfe] at this; simp at this
        | some e => simp
      · unfold validateBatch
        cases hfe : firstFileError fmv batch with
        | none => simp [hov]
        | some e => simp
    cases hv : validateBatch fmv batch with
    | none => rw [hv] at hsome; simp at hsome
    | some e => constructor <;> simp [ingestExternal, hv]
  · intro f hsuf
    simp [validateFile, hsuf]
  · intro f h1 h2
    simp [validateFile, h1, h2]
  · intro f h1 h2 h3
    simp [validateFile, h1, h2, h3]
  · intro hfe hov
    simp [validateBatch, hfe, hov]

/-- Witness for C7: the testdata batch `f3 bounds=(c,f), f4 bounds=(e,h)` —
the ranges overlap, ingestion fails and registers neither file; and the
testdata vectors for reversed bounds `(c,a)` and a suffixed start key
`a@1`. -/
theorem ingestExternal_validation_witness :
    (anyOverlap [⟨[99], [102], none, none⟩, ⟨[101], [104], none, none⟩] = true ∧
      (ingestExternal [] 20
          [⟨[99], [102], none, none⟩, ⟨[101], [104], none, none⟩]).2.isSome = true ∧
      (ingestExternal [] 20
          [⟨[99], [102], none, none⟩, ⟨[101], [104], none, none⟩]).1 = []) ∧
    (validateFile 20 ⟨[99], [97], none, none⟩ = some .invalidBounds ∧
      validateFile 20 ⟨[97, 64, 49], [122], none, none⟩ = some .startKeyHasSuffix ∧
      validateFile 16 ⟨[102, 102], [102, 105], some [102], none⟩ =
        some .fmvTooOldSynthPre) :=
  ⟨⟨by decide,
    ((ingestExternal_validation [] 20
        [⟨[99], [102], none, none⟩, ⟨[101], [104], none, none⟩]).2.1
      (Or.inr (by decide))).1,
    ((ingestExternal_validation [] 20
        [⟨[99], [102], none, none⟩, ⟨[101], [104], none, none⟩]).2.1
      (Or.inr (by decide))).2⟩,
   by decide, by decide, by decide⟩

/-- Validation against the `ingest-external` test vectors appended to
`vfs/vfstest/open_files.go`: overlapping batch `(c,f),(e,h)` errors;
touching batch `(c,f),(f,hh)` succeeds; `(c,a)` is invalid; `(a@1,z)` and
`(a,z@10)` have suffixed bounds; synthetic prefix at version 16 is too old. -/
theorem ingest_external_testdata :
    validateBatch 20 [⟨[99], [102], none, none⟩, ⟨[101], [104], none, none⟩] =
      some .overlappingRanges ∧
    validateBatch 20 [⟨[99], [102], none, none⟩, ⟨[102], [104, 104], none, none⟩] =
      none ∧
    validateBatch 20 [⟨[99], [97], none, none⟩] = some .invalidBounds ∧
    validateBatch 20 [⟨[97, 64, 49], [122], none, none⟩] = some .startKeyHasSuffix ∧
    validateBatch 20 [⟨[97], [122, 64, 49, 48], none, none⟩] = some .endKeyHasSuffix ∧
    validateBatch 16 [⟨[102, 102], [102, 105], some [102], none⟩] =
      some .fmvTooOldSynthPre ∧
    validateBatch 16 [⟨[102, 102], [102, 105], none, some [64, 53]⟩] =
      some .fmvTooOldSynthSuf := by
  refine ⟨?_, ?_, ?_, ?_, ?_, ?_, ?_⟩ <;> decide

/-! ## The open-file-tracking filesystem wrapper (C10)
(`vfs/vfstest/open_files.go`). Tracked wrappers are identified by the order
in which they were created (`nextId`); the tracked set is `files`. -/

/-- The mutable state of `openFilesFS`: the tracked open files and a fresh
identifier supply for newly created wrappers. -/
structure TrackState where
  files : List Nat
  nextId : Nat
deriving DecidableEq, Repr

/-- `wrapOpenFile` (lines 123-133): a nil inner file is returned as-is and
never tracked; a non-nil file is wrapped and added to the tracked set. -/
def wrapOpenFile (st : TrackState) (innerIsNil : Bool) : Option Nat × TrackState :=
  if innerIsNil then (none, st)
  else (some st.nextId, ⟨st.nextId :: st.files, st.nextId + 1⟩)

/-- `openFile.Close` (lines 153-159): close the inner file, remove exactly
this wrapper from the tracked set, and return the inner close error. -/
def closeFile (st : TrackState) (id : Nat) (innerErr : Option Nat) :
    Option Nat × TrackState :=
  (innerErr, ⟨st.files.erase id, st.nextId⟩)

/-- One line of `dumpStacks` output. -/
inductive DumpLine where
  | header (n : Nat)
  | stack (id : Nat)
deriving DecidableEq, Repr

/-- `dumpStacks` (lines 37-48): writes nothing when no files are tracked,
otherwise a header naming the count followed by one stack per tracked file. -/
def dumpStacks (st : TrackState) : List DumpLine :=
  if st.files.isEmpty then []
  else DumpLine.header st.files.length :: st.files.map DumpLine.stack

/-- A trace event against the wrapper: an open-family call (`Create`,
`Open`, `OpenReadWrite`, `OpenDir`, `ReuseForWrite`) whose inner FS returned
nil or non-nil, or a `Close` of a previously returned wrapper. -/
inductive FSOp where
  | openNil
  | openFile
  | closeFile (id : Nat)
deriving DecidableEq, Repr

/-- Replay of a trace against the wrapper state. -/
def replayOps (st : TrackState) : List FSOp → TrackState
  | [] => st
  | FSOp.openNil :: ops => replayOps (wrapOpenFile st true).2 ops
  | FSOp.openFile :: ops => replayOps (wrapOpenFile st false).2 ops
  | FSOp.closeFile i :: ops => replayOps (closeFile st i none).2 ops

/-- The identifiers handed out to the non-nil opens of a trace, given the
next fresh identifier. -/
def openedIds (n : Nat) : List FSOp → List Nat
  | [] => []
  | FSOp.openFile :: ops => n :: openedIds (n + 1) ops
  | FSOp.openNil :: ops => openedIds n ops
  | FSOp.closeFile _ :: ops => openedIds n ops

/-- The identifiers closed by a trace. -/
def closedIds : List FSOp → List Nat
  | [] => []
  | FSOp.closeFile i :: ops => i :: closedIds ops
  | _ :: ops => closedIds ops

/-- A well-formed trace only closes a wrapper that is currently tracked
(callers close handles they were handed and not yet closed). -/
def wfTrace (st : TrackState) : List FSOp → Bool
  | [] => true
  | FSOp.openNil :: ops => wfTrace st ops
  | FSOp.openFile :: ops => wfTrace (wrapOpenFile st false).2 ops
  | FSOp.closeFile i :: ops =>
    st.files.contains i && wfTrace (closeFile st i none).2 ops

/-- The state invariant: tracked identifiers are distinct and below the
fresh supply. -/
def TrackInv (st : TrackState) : Prop :=
  st.files.Nodup ∧ ∀ i ∈ st.files, i < st.nextId

theorem openedIds_ge : ∀ ops n x, x ∈ openedIds n ops → n ≤ x := by
  intro ops
  induction ops with
  | nil => intro n x hx; simp [openedIds] at hx
  | cons op ops ih =>
    intro n x hx
    cases op with
    | openNil => exact ih n x hx
    | openFile =>
      rcases List.mem_cons.mp hx with rfl | hx2
      · exact Nat.le_refl x
      · exact Nat.le_trans (Nat.le_succ n) (ih (n + 1) x hx2)
    | closeFile i => exact ih n x hx

theorem replayOps_mem :
    ∀ ops st, TrackInv st → wfTrace st ops = true →
      ∀ x, x ∈ (replayOps st ops).files ↔
        ((x ∈ st.files ∨ x ∈ openedIds st.nextId ops) ∧ x ∉ closedIds ops) := by
  intro ops
  induction ops with
  | nil =>
    intro st _ _ x
    simp [replayOps, openedIds, closedIds]
  | cons op ops ih =>
    intro st hinv hwf x
    cases op with
    | openNil =>
      simpa [replayOps, wrapOpenFile, openedIds, closedIds] using
        ih st hinv (by simpa [wfTrace] using hwf) x
    | openFile =>
      have hinv' : TrackInv ⟨st.nextId :: st.files, st.nextId + 1⟩ := by
        obtain ⟨hnd, hbd⟩ := hinv
        refine ⟨List.Nodup.cons (fun hc => ?_) hnd, ?_⟩
        · exact absurd (hbd st.nextId hc) (Nat.lt_irrefl _)
        · intro i hi
          dsimp only at hi ⊢
          rcases List.mem_cons.mp hi with rfl | hi2
          · exact Nat.lt_succ_self _
          · exact Nat.lt_succ_of_lt (hbd i hi2)
      have hwf' : wfTrace ⟨st.nextId :: st.files, st.nextId + 1⟩ ops = true := by
        simpa [wfTrace, wrapOpenFile] using hwf
      have hstep := ih ⟨st.nextId :: st.files, st.nextId + 1⟩ hinv' hwf' x
      dsimp only at hstep
      have hrepl : replayOps st (FSOp.openFile :: ops) =
          replayOps ⟨st.nextId :: st.files, st.nextId + 1⟩ ops := by
        simp [replayOps, wrapOpenFile]
      rw [hrepl, hstep]
      simp only [openedIds, closedIds, List.mem_cons]
      tauto
    | closeFile i =>
      have hwf2 := hwf
      simp only [wfTrace, Bool.and_eq_true] at hwf2
      obtain ⟨hmem, hwf'⟩ := hwf2
      have hmem2 : i ∈ st.files := by simpa using hmem
      obtain ⟨hnd, hbd⟩ := hinv
      have hinv' : TrackInv ⟨st.files.erase i, st.nextId⟩ :=
        ⟨hnd.erase i, fun j hj => hbd j (List.mem_of_mem_erase hj)⟩
      have hstep := ih ⟨st.files.erase i, st.nextId⟩ hinv' hwf' x
      dsimp only at hstep
      have hrepl : replayOps st (FSOp.closeFile i :: ops) =
          replayOps ⟨st.files.erase i, st.nextId⟩ ops := by
        simp [replayOps, closeFile]
      rw [hrepl, hstep]
      simp only [openedIds, closedIds, List.mem_cons]
      by_cases hxi : x = i
      · subst hxi
        constructor
        · rintro ⟨h1 | h1, _⟩
          · exact absurd h1 (hnd.not_mem_erase)
          · have := openedIds_ge ops st.nextId x h1
            exact absurd (hbd x hmem2) (by omega)
        · rintro ⟨_, h2⟩
          exact absurd (Or.inl rfl) h2
      · have herase : x ∈ st.files.erase i ↔ x ∈ st.files := by
          constructor
          · exact List.mem_of_mem_erase
          · intro hx
            exact (List.Nodup.mem_erase_iff hnd).mpr ⟨hxi, hx⟩
        rw [herase]
        constructor
        · rintro ⟨h1, h2⟩
          exact ⟨h1, fun hc => hc.elim (fun e => hxi e) h2⟩
        · rintro ⟨h1, h2⟩
          exact ⟨h1, fun hc => h2 (Or.inr hc)⟩

/-- Claim C10: starting from the empty state, the tracked set contains
exactly the non-nil file handles returned by the open-family calls that
have not yet been closed; a nil result is never tracked (`wrapOpenFile`
returns it unchanged); `Close` removes exactly the closed file while
returning the underlying close error; and `dumpStacks` writes nothing if
and only if the tracked set is empty. -/
theorem openFilesFS_tracking (ops : List FSOp)
    (hwf : wfTrace ⟨[], 0⟩ ops = true) :
    (∀ x, x ∈ (replayOps ⟨[], 0⟩ ops).files ↔
      (x ∈ openedIds 0 ops ∧ x ∉ closedIds ops)) ∧
    (∀ st : TrackState, wrapOpenFile st true = (none, st)) ∧
    (∀ (st : TrackState) (id : Nat) (er : Option Nat),
      closeFile st id er = (er, ⟨st.files.erase id, st.nextId⟩)) ∧
    (∀ st : TrackState, dumpStacks st = [] ↔ st.files = []) := by
  refine ⟨?_, fun st => rfl, fun st id er => rfl, ?_⟩
  · intro x
    have := replayOps_mem ops ⟨[], 0⟩ ⟨List.nodup_nil, by simp⟩ hwf x
    simpa using this
  · intro st
    unfold dumpStacks
    cases hf : st.files with
    | nil => simp
    | cons a l => simp

/-- Witness for C10: the trace open, open, close(0) — file 1 remains
tracked, file 0 does not, and the other conjuncts instantiated. -/
theorem openFilesFS_tracking_witness :
    wfTrace ⟨[], 0⟩ [FSOp.openFile, FSOp.openFile, FSOp.closeFile 0] = true ∧
    ((1 ∈ (replayOps ⟨[], 0⟩
        [FSOp.openFile, FSOp.openFile, FSOp.closeFile 0]).files ↔
      (1 ∈ openedIds 0 [FSOp.openFile, FSOp.openFile, FSOp.closeFile 0] ∧
        1 ∉ closedIds [FSOp.openFile, FSOp.openFile, FSOp.closeFile 0])) ∧
     wrapOpenFile ⟨[5], 6⟩ true = (none, ⟨[5], 6⟩) ∧
     closeFile ⟨[5], 6⟩ 5 (some 9) = (some 9, ⟨[], 6⟩) ∧
     (dumpStacks ⟨[], 3⟩ = [] ↔ ([] : List Nat) = [])) :=
  ⟨by decide,
   (openFilesFS_tracking [FSOp.openFile, FSOp.openFile, FSOp.closeFile 0]
      (by decide)).1 1,
   (openFilesFS_tracking [FSOp.openFile, FSOp.openFile, FSOp.closeFile 0]
      (by decide)).2.1 ⟨[5], 6⟩,
   by decide,
   (openFilesFS_tracking [FSOp.openFile, FSOp.openFile, FSOp.closeFile 0]
      (by decide)).2.2.2 ⟨[], 3⟩⟩
